import Mathlib

/-!
# Verification of the checkergen run-time core

Shallow embedding of the checkergen stimulus engine (files `core.py` of the
latest revision and of an earlier revision, plus `utils.py`), together with
proofs about its phase scheduler, display-group state machine, trigger/event
encoding, flip-count triggers and frame export.

Python `Decimal` values are modelled as rationals (`ℚ`).  Where the
default context's rounding to 28 significant digits matters — the
checkerboard phase arithmetic — it is modelled explicitly by `decRound28`
below; the other quantities involved are exactly representable, so their
arithmetic is exact.  Python 2's built-in `round` (which converts its
decimal operand through a binary float; the conversion is exact in effect
except within one double-ulp of a rounding boundary) rounds half away from
zero and is modelled by `pyRound`.
-/

set_option allowUnsafeReducibility true

namespace Checkergen

attribute [local semireducible] Rat.add Rat.mul Rat.sub Rat.neg Rat.inv Rat.ofScientific

/-- Python's `%` on (nonnegative) decimals: `a % b = a - b*⌊a/b⌋`. -/
def decMod (a b : ℚ) : ℚ := a - b * (⌊a / b⌋ : ℚ)

/-- Python 2's built-in `round`: round to nearest integer, halves away
from zero. -/
def pyRound (q : ℚ) : ℤ := if 0 ≤ q then ⌊q + 1 / 2⌋ else ⌈q - 1 / 2⌉

/-! ## CheckerBoard phase state

From the latest revision's `core.py` (`CheckerBoard.reset`, lines 1234-1243;
`CheckerBoard.update`, lines 1245-1262; `CheckerBoard.draw`, lines
1312-1327), with the module constant `INT_HALF_PERIODS = True` (line 44).
The geometric model (`compute`, the two vertex batches) does not interact
with the phase fields and is represented only by the index of the batch that
`draw` selects. -/

/-- The phase-relevant mutable fields of a `CheckerBoard`:
`_cur_phase`, `_prev_phase` and `flipped`. -/
structure CBState where
  cur_phase : ℚ
  prev_phase : ℚ
  flipped : Bool
deriving DecidableEq, Repr

/-- Source `CheckerBoard.reset`: both phases set to the given phase, `flipped`
cleared. -/
def CheckerBoard.reset (phase : ℚ) : CBState :=
  { cur_phase := phase, prev_phase := phase, flipped := false }

/-- Source `CheckerBoard.update(fps)` with `INT_HALF_PERIODS = True`:
`frames_per_half_period = round(fps / (freq * 2))`,
`degs_per_frame = 180 / frames_per_half_period`; the phase is advanced and
wrapped at 360, and `flipped` records whether `cur_phase // 180` changed.
When the rounded half-period is `0` the source raises
`decimal.DivisionByZero` (`180 / Decimal(0)`); that is modelled by `none`.
This definition reads the decimal arithmetic exactly; it serves the
totality question (whether `180 / Decimal(0)` is reached), which the
context rounding cannot affect.  `CheckerBoard.updateDec` below models the
28-significant-digit context rounding of each operation as well. -/
def CheckerBoard.update (freq fps : ℚ) (st : CBState) : Option CBState :=
  let prev := st.cur_phase
  if freq ≠ 0 then
    let fphp : ℤ := pyRound (fps / (freq * 2))
    if fphp = 0 then none
    else
      let degs : ℚ := 180 / (fphp : ℚ)
      let c1 := st.cur_phase + degs
      let cur := if 360 ≤ c1 then decMod c1 360 else c1
      some { cur_phase := cur, prev_phase := prev,
             flipped := decide (⌊cur / 180⌋ ≠ ⌊prev / 180⌋) }
  else
    some { cur_phase := st.cur_phase, prev_phase := prev,
           flipped := decide (⌊st.cur_phase / 180⌋ ≠ ⌊prev / 180⌋) }

/-- Source `CheckerBoard.draw`: reduces `_cur_phase` modulo 360, selects batch
`n = _cur_phase // 180`, and with `photoburst` set selects batch 1 whenever
`n = 0` and the board did not just flip.  Returns the post-call phase state
and the index of the batch drawn.  (The `compute` call guarded by
`_computed` builds the geometry only and touches no phase field.) -/
def CheckerBoard.draw (photoburst : Bool) (st : CBState) : CBState × ℕ :=
  let cur := decMod st.cur_phase 360
  let n : ℤ := ⌊cur / 180⌋
  let n' : ℤ := if photoburst ∧ n = 0 ∧ ¬st.flipped then 1 else n
  ({ st with cur_phase := cur }, n'.toNat)

/-! ## Arithmetic facts about `decMod` -/

theorem decMod_eq_fract (a b : ℚ) (hb : b ≠ 0) :
    decMod a b = b * Int.fract (a / b) := by
  rw [decMod, Int.fract]
  field_simp

theorem decMod_nonneg (a b : ℚ) (hb : 0 < b) : 0 ≤ decMod a b := by
  rw [decMod_eq_fract a b (ne_of_gt hb)]
  exact mul_nonneg hb.le (Int.fract_nonneg _)

theorem decMod_lt (a b : ℚ) (hb : 0 < b) : decMod a b < b := by
  rw [decMod_eq_fract a b (ne_of_gt hb)]
  calc b * Int.fract (a / b) < b * 1 :=
        mul_lt_mul_of_pos_left (Int.fract_lt_one _) hb
    _ = b := mul_one b

theorem decMod_eq_self (a b : ℚ) (h0 : 0 ≤ a) (h1 : a < b) : decMod a b = a := by
  have hb : 0 < b := lt_of_le_of_lt h0 h1
  have hf : ⌊a / b⌋ = 0 :=
    Int.floor_eq_zero_iff.mpr ⟨div_nonneg h0 hb.le, (div_lt_one hb).mpr h1⟩
  rw [decMod, hf]
  push_cast
  ring

theorem decMod_add_int_mul (a b : ℚ) (k : ℤ) (hb : b ≠ 0) :
    decMod (a + b * (k : ℚ)) b = decMod a b := by
  rw [decMod_eq_fract _ _ hb, decMod_eq_fract _ _ hb]
  congr 1
  have h : (a + b * (k : ℚ)) / b = a / b + (k : ℚ) := by
    field_simp
    ring
  rw [h, Int.fract_add_int]

/-! ## C9: totality of `CheckerBoard.update` -/

/-- C9, counterexample.  The claim says that for every `freq > 0` and
`fps > 0` the update never divides by zero.  But at `freq = 2`, `fps = 1`
the rounded number of frames per half-period is `round(1/4) = 0`, and
`180 / Decimal(0)` raises `decimal.DivisionByZero`. -/
theorem update_total_counterexample :
    (0 : ℚ) < 2 ∧ (0 : ℚ) < 1 ∧
    pyRound ((1 : ℚ) / (2 * 2)) = 0 ∧
    CheckerBoard.update 2 1 (CheckerBoard.reset 0) = none := by decide

/-- Rounding half away from zero sends everything at or above `1/2` to a
positive integer. -/
theorem one_le_pyRound (q : ℚ) (hq : 1 / 2 ≤ q) : 1 ≤ pyRound q := by
  have h0 : (0 : ℚ) ≤ q := le_trans (by norm_num) hq
  rw [pyRound, if_pos h0]
  have : (1 : ℚ) ≤ q + 1 / 2 := by linarith
  exact_mod_cast Int.le_floor.mpr (by exact_mod_cast this)

/-- C9, amended.  For every checkerboard with `freq > 0` and every
`fps ≥ freq`, the rounded number of frames per half-period is at least 1,
so `update(fps)` never divides by zero and always returns a result. -/
theorem update_total_amended (freq fps : ℚ) (hf : 0 < freq) (hle : freq ≤ fps)
    (st : CBState) :
    1 ≤ pyRound (fps / (freq * 2)) ∧
    ∃ st', CheckerBoard.update freq fps st = some st' := by
  have hq : 1 / 2 ≤ fps / (freq * 2) := by
    rw [div_le_div_iff₀ (by norm_num) (by positivity)]
    linarith
  have h1 : 1 ≤ pyRound (fps / (freq * 2)) := one_le_pyRound _ hq
  refine ⟨h1, ?_⟩
  rw [CheckerBoard.update, if_pos (ne_of_gt hf), if_neg (by omega)]
  exact ⟨_, rfl⟩

/-- C9, witness for the amended theorem at `freq = 1`, `fps = 2`. -/
theorem update_total_amended_witness :
    (0 : ℚ) < 1 ∧ (1 : ℚ) ≤ 2 ∧
    (1 ≤ pyRound ((2 : ℚ) / (1 * 2)) ∧
     ∃ st', CheckerBoard.update 1 2 (CheckerBoard.reset 0) = some st') :=
  ⟨by norm_num, by norm_num,
   update_total_amended 1 2 (by norm_num) (by norm_num) (CheckerBoard.reset 0)⟩

/-! ## C3: flip cadence and phase periodicity -/

/-- Absolute phase after `n` updates of step `d`, wrapped at 360. -/
def phaseAt (p d : ℚ) (n : ℕ) : ℚ := decMod (p + n * d) 360

/-- Index of the half-period the unwrapped phase is in after `n` updates. -/
def gIdx (p d : ℚ) (n : ℕ) : ℤ := ⌊(p + n * d) / 180⌋

theorem phaseAt_nonneg (p d : ℚ) (n : ℕ) : 0 ≤ phaseAt p d n :=
  decMod_nonneg _ _ (by norm_num)

theorem phaseAt_lt (p d : ℚ) (n : ℕ) : phaseAt p d n < 360 :=
  decMod_lt _ _ (by norm_num)

theorem phaseAt_zero (p d : ℚ) (h0 : 0 ≤ p) (h1 : p < 360) : phaseAt p d 0 = p := by
  rw [phaseAt]
  push_cast
  rw [zero_mul, add_zero, decMod_eq_self p 360 h0 h1]

theorem phaseAt_step (p d : ℚ) (n : ℕ) :
    decMod (phaseAt p d n + d) 360 = phaseAt p d (n + 1) := by
  have h : phaseAt p d n + d =
      (p + ((n : ℚ) + 1) * d) + 360 * ((-⌊(p + n * d) / 360⌋ : ℤ) : ℚ) := by
    rw [phaseAt, decMod]
    push_cast
    ring
  rw [h, decMod_add_int_mul _ _ _ (by norm_num), phaseAt]
  push_cast
  ring_nf

theorem floor_phaseAt_div (p d : ℚ) (n : ℕ) :
    ⌊phaseAt p d n / 180⌋ = gIdx p d n - 2 * ⌊(p + n * d) / 360⌋ := by
  rw [phaseAt, decMod, gIdx]
  have h : (p + n * d - 360 * (⌊(p + n * d) / 360⌋ : ℚ)) / 180 =
      (p + n * d) / 180 + ((-(2 * ⌊(p + n * d) / 360⌋) : ℤ) : ℚ) := by
    push_cast
    ring
  rw [h, Int.floor_add_int]
  ring

theorem floor_phaseAt_mem (p d : ℚ) (n : ℕ) :
    ⌊phaseAt p d n / 180⌋ = 0 ∨ ⌊phaseAt p d n / 180⌋ = 1 := by
  have h0 : (0 : ℤ) ≤ ⌊phaseAt p d n / 180⌋ :=
    Int.floor_nonneg.mpr (div_nonneg (phaseAt_nonneg p d n) (by norm_num))
  have h1 : ⌊phaseAt p d n / 180⌋ < 2 := by
    apply Int.floor_lt.mpr
    rw [div_lt_iff₀ (by norm_num : (0:ℚ) < 180)]
    calc phaseAt p d n < 360 := phaseAt_lt p d n
      _ = (2 : ℤ) * 180 := by norm_num
  omega

theorem gIdx_le_succ (p d : ℚ) (hd : 0 ≤ d) (n : ℕ) :
    gIdx p d n ≤ gIdx p d (n + 1) := by
  apply Int.floor_le_floor
  apply div_le_div_of_nonneg_right ?_ (by norm_num : (0:ℚ) ≤ 180)
  push_cast
  nlinarith

theorem gIdx_succ_le (p d : ℚ) (hd : d ≤ 180) (n : ℕ) :
    gIdx p d (n + 1) ≤ gIdx p d n + 1 := by
  rw [gIdx, gIdx, ← Int.floor_add_one]
  apply Int.floor_le_floor
  have h : (p + (n : ℚ) * d) / 180 + 1 = (p + (n : ℚ) * d + 180) / 180 := by
    field_simp
  rw [h]
  apply div_le_div_of_nonneg_right ?_ (by norm_num : (0:ℚ) ≤ 180)
  push_cast
  linarith

theorem gIdx_add_of_mul_eq (p d : ℚ) (h : ℕ) (hhd : (h : ℚ) * d = 180) (n : ℕ) :
    gIdx p d (n + h) = gIdx p d n + 1 := by
  rw [gIdx, gIdx]
  have he : (p + ((n + h : ℕ) : ℚ) * d) / 180 = (p + (n : ℚ) * d) / 180 + 1 := by
    field_simp
    linear_combination hhd
  rw [he, Int.floor_add_one]

/-- The half-index of the wrapped phase changes across one step exactly
when the half-index of the unwrapped phase does. -/
theorem flip_iff (p d : ℚ) (hd0 : 0 < d) (hd1 : d ≤ 180) (n : ℕ) :
    (⌊phaseAt p d (n + 1) / 180⌋ ≠ ⌊phaseAt p d n / 180⌋) ↔
      gIdx p d (n + 1) ≠ gIdx p d n := by
  have e1 := floor_phaseAt_div p d (n + 1)
  have e0 := floor_phaseAt_div p d n
  have m1 := floor_phaseAt_mem p d (n + 1)
  have m0 := floor_phaseAt_mem p d n
  have s1 := gIdx_le_succ p d hd0.le n
  have s2 := gIdx_succ_le p d hd1 n
  rcases m0 with h | h <;> rcases m1 with h' | h' <;> omega

/-- A monotone integer sequence that moves in unit steps and gains exactly
one over a window has exactly one increase point inside the window. -/
theorem exists_unique_increase (g : ℕ → ℤ) (mono : ∀ a b : ℕ, a ≤ b → g a ≤ g b)
    (step : ∀ n, g (n + 1) ≤ g n + 1) (m h : ℕ) (_hh : 1 ≤ h)
    (hinc : g (m + h) = g m + 1) :
    ∃! n : ℕ, (m < n ∧ n ≤ m + h) ∧ g n ≠ g (n - 1) := by
  have key : ∀ a b : ℕ, (m < a ∧ a ≤ m + h) → (m < b ∧ b ≤ m + h) →
      g a ≠ g (a - 1) → g b ≠ g (b - 1) → a < b → False := by
    intro a b ha hb hga hgb hab
    have e1 : g a = g (a - 1) + 1 := by
      have h1 : g (a - 1) ≤ g a := mono _ _ (by omega)
      have h2 : g a ≤ g (a - 1) + 1 := by
        have := step (a - 1)
        rwa [show a - 1 + 1 = a by omega] at this
      omega
    have e2 : g b = g (b - 1) + 1 := by
      have h1 : g (b - 1) ≤ g b := mono _ _ (by omega)
      have h2 : g b ≤ g (b - 1) + 1 := by
        have := step (b - 1)
        rwa [show b - 1 + 1 = b by omega] at this
      omega
    have c1 : g m ≤ g (a - 1) := mono _ _ (by omega)
    have c2 : g a ≤ g (b - 1) := mono _ _ (by omega)
    have c3 : g b ≤ g (m + h) := mono _ _ (by omega)
    omega
  have hex : ∃ n : ℕ, (m < n ∧ n ≤ m + h) ∧ g n ≠ g (n - 1) := by
    by_contra hno
    push_neg at hno
    have hconst : ∀ j : ℕ, j ≤ h → g (m + j) = g m := by
      intro j hj
      induction j with
      | zero => rfl
      | succ j ih =>
        have h1 : g (m + j + 1) = g (m + j) := by
          have := hno (m + j + 1) ⟨by omega, by omega⟩
          simpa using this
        rw [show m + (j + 1) = m + j + 1 by omega, h1, ih (by omega)]
    have := hconst h le_rfl
    omega
  obtain ⟨n, hn⟩ := hex
  refine ⟨n, hn, ?_⟩
  intro y hy
  by_contra hne
  rcases Nat.lt_or_ge y n with hlt | hge
  · exact key y n hy.1 hn.1 hy.2 hn.2 hlt
  · exact key n y hn.1 hy.1 hn.2 hy.2 (by omega)

/-! ## C8: `photoburst` does not alter the phase state -/

/-- C8, confirmed.  Drawing with `photoburst = True` leaves the phase state
(`_cur_phase`, `_prev_phase`, `flipped`) exactly as drawing with
`photoburst = False` would: the only mutation `draw` performs on these
fields (`_cur_phase %= 360`) is independent of `photoburst`, which merely
selects which prerendered batch is drawn. -/
theorem draw_photoburst_preserves_phase (st : CBState) (pb : Bool) :
    (CheckerBoard.draw pb st).1 = (CheckerBoard.draw false st).1 := rfl

/-! ## RunState events and trigger encoding

From the latest revision's `core.py`: the `events` dictionary
(`CkgRunState.DEFAULTS['events']`, lines 618-627), `encode_events`
(lines 885-916) and the trigger/log/event-reset portion of
`CkgRunState.update` (lines 831-867).  The parts of `update` that precede
this portion (eye-tracking polling, cross drawing, canvas/window output,
timestamp logging) read and write none of the fields modelled here. -/

/-- The per-frame pending-event flags (`self.events`). -/
structure Events where
  ord_id : Option ℤ
  blk_on : Bool
  blk_off : Bool
  track_on : Bool
  track_off : Bool
  fix_on : Bool
  fix_off : Bool
  grp_on : Bool
  grp_off : Bool
  sids : Finset ℕ
deriving DecidableEq

/-- Default `CkgRunState.DEFAULTS['events']`: everything cleared. -/
def Events.default : Events :=
  { ord_id := none, blk_on := false, blk_off := false, track_on := false,
    track_off := false, fix_on := false, fix_off := false, grp_on := false,
    grp_off := false, sids := ∅ }

/-- The value stored in `CkgRunState._old_code`.  `start()` initializes it
to the integer 0; line 837 of `update` executes
`self._old_code = self.encode_events` — the call parentheses are missing,
so the *bound method object* is stored, not the code. -/
inductive OldCode where
  | intVal (n : ℤ)
  | methodRef
deriving DecidableEq

/-- Python's `!=` between the freshly computed integer code and the stored
`_old_code`: an integer compares unequal to a method object. -/
def OldCode.neCode (code : ℤ) : OldCode → Bool
  | OldCode.intVal n => code != n
  | OldCode.methodRef => true

/-- The fields of `CkgRunState` read or written by the trigger/log/reset
portion of `update`.  `sent` records the bytes passed to `trigger.send`. -/
structure RunState where
  count : ℕ
  ord_id : Option ℤ
  old_code : OldCode
  trigser : Bool
  trigpar : Bool
  logtime : Bool
  events : Events
  trigstamps : List (Option ℤ)
  sent : List ℤ
deriving DecidableEq

/-- Source `CkgRunState.encode_events` (lines 885-916), verbatim: priority chain
order-id, block-start, block-end, then the eye-tracking state built by two
sequential `if`/`elif` chains (the second overwrites the first), composed
with the group-visibility offsets, then the shape-id bitmask. -/
def RunState.encode_events (s : RunState) : ℤ :=
  match s.events.ord_id with
  | some o => o + 1
  | none =>
    if s.events.blk_on then 128
    else if s.events.blk_off then 127
    else
      let et1 : ℤ := if s.events.fix_on then 4 else if s.events.track_on then 2 else 0
      let et_state : ℤ :=
        if s.events.track_off then 1 else if s.events.fix_off then 2 else et1
      if s.events.grp_on then 100 + et_state
      else if s.events.grp_off then 90 + et_state
      else if 0 < et_state then 110 + et_state
      else if s.events.sids.Nonempty then
        (if 0 ∈ s.events.sids then (1 : ℤ) else 0) +
        (if 1 ∈ s.events.sids then 2 else 0) +
        (if 2 ∈ s.events.sids then 4 else 0) +
        (if 3 ∈ s.events.sids then 8 else 0) + 16
      else 0

/-- The trigger/log/event-reset portion of `CkgRunState.update`
(lines 831-867): compare the code with `_old_code` and transmit on
inequality; store `self.encode_events` (the method, not its value!) in
`_old_code`; append to `trigstamps`; reset the event flags, deferring
`ord_id` one frame after `blk_on`; increment the frame counter. -/
def RunState.update (s : RunState) : RunState :=
  let s1 :=
    if s.trigser || s.trigpar then
      let s' :=
        if OldCode.neCode s.encode_events s.old_code then
          { s with sent := s.sent ++ [s.encode_events] }
        else s
      { s' with old_code := OldCode.methodRef }
    else s
  let s2 :=
    if s1.logtime ∧ 0 < s1.encode_events then
      { s1 with trigstamps := s1.trigstamps ++ [some s1.encode_events] }
    else
      { s1 with trigstamps := s1.trigstamps ++ [none] }
  let send_ord_id_next := s2.events.blk_on
  let s3 := { s2 with events :=
    { Events.default with ord_id := if send_ord_id_next then s2.ord_id else none } }
  { s3 with count := s3.count + 1 }

/-! ## C2: the trigger byte encoding -/

/-- The eye-tracking transition state exactly as the claim words it:
"fixation-start=+4, tracking-start=+2, tracking-stop=+1", i.e. the three
contributions added together. -/
def claimEtState (e : Events) : ℤ :=
  (if e.fix_on then 4 else 0) + (if e.track_on then 2 else 0) +
  (if e.track_off then 1 else 0)

/-- The trigger byte as the claim describes it, differing from the source
only in the eye-tracking state computation (`claimEtState`). -/
def claimEncode (s : RunState) : ℤ :=
  match s.events.ord_id with
  | some o => o + 1
  | none =>
    if s.events.blk_on then 128
    else if s.events.blk_off then 127
    else
      let et_state := claimEtState s.events
      if s.events.grp_on then 100 + et_state
      else if s.events.grp_off then 90 + et_state
      else if 0 < et_state then 110 + et_state
      else if s.events.sids.Nonempty then
        (if 0 ∈ s.events.sids then (1 : ℤ) else 0) +
        (if 1 ∈ s.events.sids then 2 else 0) +
        (if 2 ∈ s.events.sids then 4 else 0) +
        (if 3 ∈ s.events.sids then 8 else 0) + 16
      else 0

/-- The eye-tracking transition state as the source actually computes it:
two sequential `if`/`elif` chains, the second overriding the first, so
tracking-stop forces state 1 and fixation-stop (absent from the claim)
forces state 2. -/
def amendedEtState (e : Events) : ℤ :=
  if e.track_off then 1
  else if e.fix_off then 2
  else if e.fix_on then 4
  else if e.track_on then 2
  else 0

/-- The trigger byte as the amended claim describes it. -/
def claimEncodeAmended (s : RunState) : ℤ :=
  match s.events.ord_id with
  | some o => o + 1
  | none =>
    if s.events.blk_on then 128
    else if s.events.blk_off then 127
    else
      let et_state := amendedEtState s.events
      if s.events.grp_on then 100 + et_state
      else if s.events.grp_off then 90 + et_state
      else if 0 < et_state then 110 + et_state
      else if s.events.sids.Nonempty then
        (if 0 ∈ s.events.sids then (1 : ℤ) else 0) +
        (if 1 ∈ s.events.sids then 2 else 0) +
        (if 2 ∈ s.events.sids then 4 else 0) +
        (if 3 ∈ s.events.sids then 8 else 0) + 16
      else 0

/-- A run state with only the fixation-start and tracking-stop transitions
pending. -/
def fixOnTrackOffState : RunState :=
  { count := 0, ord_id := none, old_code := OldCode.intVal 0,
    trigser := true, trigpar := false, logtime := false,
    events := { Events.default with fix_on := true, track_off := true },
    trigstamps := [], sent := [] }

/-- C2, counterexample.  With fixation-start and tracking-stop both
pending (and no group transition), the source computes state 1
(tracking-stop overrides fixation-start) and emits 111, while the claim's
additive composition `+4 +1` gives state 5 and would emit 115. -/
theorem encode_events_counterexample :
    RunState.encode_events fixOnTrackOffState = 111 ∧
    claimEncode fixOnTrackOffState = 115 := by decide

/-- C2, amended.  The trigger byte follows the claimed priority order
(order-id > block-start 128 > block-end 127 > eye-tracking/group
composition > flip bitmask > 0), with the eye-tracking state computed by
override priority: tracking-stop = 1, else fixation-stop = 2, else
fixation-start = 4, else tracking-start = 2. -/
theorem encode_events_amended (s : RunState) :
    RunState.encode_events s = claimEncodeAmended s := by
  rcases s with ⟨c, oid, oc, ts, tp, lt, ev, tg, snt⟩
  rcases ev with ⟨eoid, b1, b2, tr_on, tr_off, fx_on, fx_off, g1, g2, sids⟩
  cases eoid <;> cases tr_off <;> cases fx_off <;> cases fx_on <;> cases tr_on <;> rfl

/-! ## C10: `encode_events` is pure and reads only the event flags -/

/-- C10, confirmed.  `encode_events` returns an integer and performs no
assignment (in the embedding: it is a plain function into `ℤ`), and its
value depends only on the `events` field: two run states agreeing on the
pending event flags yield equal codes, no matter how the rest of the state
differs.  `update` may therefore call it several times per frame (compare,
transmit, log) and observe one consistent code. -/
theorem encode_events_pure (s t : RunState) (h : s.events = t.events) :
    RunState.encode_events s = RunState.encode_events t := by
  unfold RunState.encode_events
  rw [h]

/-- C10, witness: two run states differing in frame count, `_old_code`,
port flags and logs, but with identical event flags, receive equal codes. -/
theorem encode_events_pure_witness :
    ({ count := 0, ord_id := none, old_code := OldCode.intVal 0,
       trigser := true, trigpar := false, logtime := false,
       events := { Events.default with blk_on := true },
       trigstamps := [], sent := [] } : RunState) ≠
    ({ count := 7, ord_id := some 3, old_code := OldCode.methodRef,
       trigser := false, trigpar := true, logtime := true,
       events := { Events.default with blk_on := true },
       trigstamps := [none], sent := [5] } : RunState) ∧
    RunState.encode_events
      { count := 0, ord_id := none, old_code := OldCode.intVal 0,
        trigser := true, trigpar := false, logtime := false,
        events := { Events.default with blk_on := true },
        trigstamps := [], sent := [] } =
    RunState.encode_events
      { count := 7, ord_id := some 3, old_code := OldCode.methodRef,
        trigser := false, trigpar := true, logtime := true,
        events := { Events.default with blk_on := true },
        trigstamps := [none], sent := [5] } :=
  ⟨by decide, encode_events_pure _ _ rfl⟩

/-! ## C1: triggers are sent only on a change of code -/

/-- The run state right after `start()` with serial triggering enabled:
`_count = 0`, `_old_code` holds the integer 0, no pending events. -/
def startState : RunState :=
  { count := 0, ord_id := none, old_code := OldCode.intVal 0,
    trigser := true, trigpar := false, logtime := false,
    events := Events.default, trigstamps := [], sent := [] }

/-- C1, evaluation of the code at the failing input.  On the first frame no
event is pending, the code is 0 and equals `_old_code = 0`, so nothing is
transmitted — but `update` then stores the bound method `encode_events`
itself in `_old_code` (missing call parentheses at line 837).  On the
second frame the code is still 0 and no event occurred, yet
`encode_events() != self._old_code` is true (an integer never equals a
method object), so a trigger byte 0 is transmitted, contradicting the
claimed send-only-on-change behaviour. -/
theorem trigger_send_on_change_code_evaluation :
    RunState.encode_events startState = 0 ∧
    (RunState.update startState).sent = [] ∧
    (RunState.update startState).events = Events.default ∧
    RunState.encode_events (RunState.update startState) = 0 ∧
    (RunState.update (RunState.update startState)).sent = [0] := by decide

/-! ## C7: flip-count triggers

From the latest revision's `core.py`, `CkgDisplayGroup.update`
(lines 1012-1025): the event-setting loop over `enumerate(self.shapes)`.
Each shape is represented by its `flipped` flag paired with its current
`_flip_count` entry. -/

/-- The body of `for n, shape in enumerate(self.shapes)` starting at index
`n`: a flipped shape increments its counter; a counter at or above `fpst`
resets to 0 and, when `gate` (`not freqcheck or fc_send`) holds, adds the
shape index to `sids`.  Returns the new counters and the accumulated id
set. -/
def flipTrigGo (fpst : ℕ) (gate : Bool) :
    ℕ → List (Bool × ℕ) → Finset ℕ → List ℕ × Finset ℕ
  | _, [], sids => ([], sids)
  | n, (f, c) :: rest, sids =>
    let c1 := if f then c + 1 else c
    let res : ℕ × Finset ℕ :=
      if fpst ≤ c1 then (0, if gate then insert n sids else sids) else (c1, sids)
    let tail := flipTrigGo fpst gate (n + 1) rest res.2
    (res.1 :: tail.1, tail.2)

/-- The event-setting part of `CkgDisplayGroup.update`: runs the counter
loop only when `fpst > 0`. -/
def CkgDisplayGroup.flipTriggers (fpst : ℕ) (freqcheck fc_send : Bool)
    (shapes : List (Bool × ℕ)) (sids : Finset ℕ) : List ℕ × Finset ℕ :=
  if 0 < fpst then flipTrigGo fpst (!freqcheck || fc_send) 0 shapes sids
  else (shapes.map Prod.snd, sids)

/-- C7, counterexample.  With `fpst = 1 > 0` but `freqcheck` enabled and
`fc_send` clear, a single flipped shape has its counter reach the
threshold and reset to 0, yet its index is *not* added to the pending id
set, contrary to the claim. -/
theorem flip_trigger_counterexample :
    (0 : ℕ) < 1 ∧
    CkgDisplayGroup.flipTriggers 1 true false [(true, 0)] ∅ = ([0], ∅) := by decide

/-- Frame-by-frame run of a group holding a single shape that flips on
every frame, starting from a freshly reset counter, with `freqcheck`
disabled; the `sids` set starts empty each frame because `RunState.update`
clears the event flags between frames.  Returns the counter after `n`
frames and the ids the `n`-th frame added. -/
def singleShapeRun (fpst : ℕ) : ℕ → ℕ × Finset ℕ
  | 0 => (0, ∅)
  | n + 1 =>
    let prev := singleShapeRun fpst n
    let r := CkgDisplayGroup.flipTriggers fpst false false [(true, prev.1)] ∅
    (r.1.headI, r.2)

/-- C7, amended.  Provided `freqcheck` is disabled (or `fc_send` is set),
the claim holds: with `fpst = k > 0`, a single shape flipping on every
frame has its counter increment each frame and reset on reaching `k`, so
after `n` frames the counter is `n % k` and a flip-id trigger for shape 0
is pending exactly on frames `n` divisible by `k`. -/
theorem flipTriggers_single (k c : ℕ) (hk : 0 < k) :
    CkgDisplayGroup.flipTriggers k false false [(true, c)] ∅ =
      (if k ≤ c + 1 then [0] else [c + 1],
       if k ≤ c + 1 then {0} else (∅ : Finset ℕ)) := by
  rw [CkgDisplayGroup.flipTriggers, if_pos hk]
  by_cases h : k ≤ c + 1
  · simp [flipTrigGo, h]
  · simp [flipTrigGo, h]

theorem succ_mod_eq (k n : ℕ) (hk : 0 < k) :
    (n + 1) % k = if n % k + 1 = k then 0 else n % k + 1 := by
  have hdm := Nat.div_add_mod n k
  by_cases he : n % k + 1 = k
  · have hn : n + 1 = k * (n / k + 1) := by
      rw [Nat.mul_add, Nat.mul_one]
      omega
    rw [if_pos he, hn, Nat.mul_mod_right]
  · have hlt : n % k < k := Nat.mod_lt n hk
    have h2 : n % k + 1 < k := by omega
    rw [if_neg he, show n + 1 = k * (n / k) + (n % k + 1) by omega,
      Nat.mul_add_mod, Nat.mod_eq_of_lt h2]

theorem flip_trigger_amended (k : ℕ) (hk : 1 ≤ k) (n : ℕ) :
    (singleShapeRun k n).1 = n % k ∧
    (1 ≤ n → (singleShapeRun k n).2 = if k ∣ n then {0} else (∅ : Finset ℕ)) := by
  induction n with
  | zero => exact ⟨by simp [singleShapeRun], by omega⟩
  | succ n ih =>
    have hk0 : 0 < k := hk
    have hlt : n % k < k := Nat.mod_lt n hk0
    have hstep := flipTriggers_single k (n % k) hk0
    have hdvd : k ∣ n + 1 ↔ (n + 1) % k = 0 := Nat.dvd_iff_mod_eq_zero
    simp only [singleShapeRun, ih.1, hstep]
    by_cases h2 : k ≤ n % k + 1
    · have he : n % k + 1 = k := by omega
      refine ⟨?_, fun _ => ?_⟩
      · simp only [if_pos h2, List.headI]
        rw [succ_mod_eq k n hk0, if_pos he]
      · rw [if_pos h2, if_pos (hdvd.mpr (by rw [succ_mod_eq k n hk0, if_pos he]))]
    · have he : n % k + 1 ≠ k := by omega
      refine ⟨?_, fun _ => ?_⟩
      · simp only [if_neg h2, List.headI]
        rw [succ_mod_eq k n hk0, if_neg he]
      · rw [if_neg h2, if_neg (fun hd => he (by
          have h0 := hdvd.mp hd
          rw [succ_mod_eq k n hk0] at h0
          by_contra hne
          rw [if_neg hne] at h0
          omega))]

/-- C7, witness for the amended theorem at `k = 3`, `n = 6`. -/
theorem flip_trigger_amended_witness :
    (1 ≤ 3) ∧
    ((singleShapeRun 3 6).1 = 6 % 3 ∧
     (1 ≤ 6 → (singleShapeRun 3 6).2 = if 3 ∣ 6 then {0} else (∅ : Finset ℕ))) :=
  ⟨by decide, flip_trigger_amended 3 (by decide) 6⟩

/-! ## Export: frame counting, capacity guard and filenames

From the latest revision's `core.py` (`MAX_EXPORT_FRAMES = 1000`, line 41;
`CkgProj.export`, lines 525-596; the per-frame image save of
`CkgRunState.update`, lines 803-809, and its termination check, lines
864-867) and `utils.py` (`numdigits`, lines 9-15). -/

def MAX_EXPORT_FRAMES : ℕ := 1000

/-- Function `numdigits` from `utils.py`, as its documentation specifies
("Returns number of digits in a decimal integer"): the source computes
`int(math.log(x, 10)) + 1`, with 0 special-cased and negatives made
positive.  The logarithm is modelled exactly by `Nat.log`, which is the
documented intent; the source's binary-float `math.log` deviates from it
at `x = 1000` (it returns 2.9999999999999996, so the source yields 3, not
4) — that deviation is the recorded code bug of the padding-width claim,
see `numdigits_padding_bug_evaluation`. -/
def numdigits (x : ℤ) : ℕ :=
  if x = 0 then 1 else Nat.log 10 x.natAbs + 1

/-- Big-endian decimal digits of `n` (empty for 0), written with explicit
fuel so that it evaluates inside the kernel; `pyDigits_eq` identifies it
with `(Nat.digits 10 n).reverse`. -/
def pyDigitsAux : ℕ → ℕ → List ℕ
  | _, 0 => []
  | 0, _ + 1 => []
  | fuel + 1, n + 1 => pyDigitsAux fuel ((n + 1) / 10) ++ [(n + 1) % 10]

def pyDigits (n : ℕ) : List ℕ := pyDigitsAux n n

theorem pyDigitsAux_eq (fuel n : ℕ) (h : n ≤ fuel) :
    pyDigitsAux fuel n = (Nat.digits 10 n).reverse := by
  induction fuel generalizing n with
  | zero =>
    interval_cases n
    simp [pyDigitsAux]
  | succ fuel ih =>
    match n with
    | 0 => simp [pyDigitsAux]
    | n + 1 =>
      rw [pyDigitsAux, ih ((n + 1) / 10) (by omega),
        Nat.digits_def' (by norm_num : 1 < 10) (Nat.succ_pos n), List.reverse_cons]

theorem pyDigits_eq (n : ℕ) : pyDigits n = (Nat.digits 10 n).reverse :=
  pyDigitsAux_eq n n le_rfl

/-- The character for a single decimal digit. -/
def digitChar (d : ℕ) : Char := Char.ofNat (48 + d)

/-- Python `repr(count)` for a nonnegative integer, as a character list. -/
def reprChars (n : ℕ) : List Char :=
  if n = 0 then ['0'] else (pyDigits n).map digitChar

/-- Python's `str.zfill(w)`: pad on the left with `'0'` up to width `w`. -/
def zfill (w : ℕ) (s : List Char) : List Char :=
  List.replicate (w - s.length) '0' ++ s

/-- The zero-padded index field of the filename written for frame `count`
of an export of `frames` frames: `repr(count).zfill(numdigits(frames-1))`. -/
def frameIndexField (frames count : ℕ) : List Char :=
  zfill (numdigits ((frames : ℤ) - 1)) (reprChars count)

/-- The filename written for frame `count`:
`'{0}{2}.{1}'.format(name, 'png', repr(count).zfill(...))`. -/
def framePath (name : String) (frames count : ℕ) : String :=
  name ++ String.mk (frameIndexField frames count) ++ ".png"

/-- The filenames written by an export of `frames` frames: `_count` starts
at 0, each `update` saves frame `_count` and increments, and the run
terminates once `_count >= frames`. -/
def exportFilenames (name : String) (frames : ℕ) : List String :=
  (List.range frames).map (framePath name frames)

/-- Numeric value of one filename's index field (strip the project-name
prefix and the `.png` suffix, read the decimal digits). -/
def readIndex (s : List Char) : ℕ :=
  Nat.ofDigits 10 ((s.map (fun c => c.toNat - 48)).reverse)

/-- The number of frames `CkgProj.export` will produce (lines 564-575):
project duration (pre + group durations repeated + post) times fps,
clamped by `expo_dur * fps`; `expo_dur = none` models
`Decimal('Infinity')`, which never clamps. -/
def exportFrames (pre post fps : ℚ) (groupDurs : List ℚ) (repeats : ℕ)
    (expo_dur : Option ℚ) : ℚ :=
  let groups_dur := groupDurs.sum * repeats
  let total := (pre + groups_dur + post) * fps
  match expo_dur with
  | none => total
  | some dur => min total (dur * fps)

/-- Error `FrameOverflowError` carries the offending frame count (the source
formats it into the message). -/
structure FrameOverflowError where
  frames : ℚ
deriving DecidableEq

/-- Source `CkgProj.export`: after computing the frame count, raise
`FrameOverflowError` if it exceeds `MAX_EXPORT_FRAMES` and `force` is not
set — the check precedes the frame loop, so in the error case no frame is
written.  Otherwise run the loop, writing one image per frame until
`_count >= frames`. -/
def CkgProj.export (name : String) (pre post fps : ℚ) (groupDurs : List ℚ)
    (repeats : ℕ) (expo_dur : Option ℚ) (force : Bool) :
    Except FrameOverflowError (List String) :=
  let frames := exportFrames pre post fps groupDurs repeats expo_dur
  if (MAX_EXPORT_FRAMES : ℚ) < frames ∧ ¬force then
    Except.error ⟨frames⟩
  else
    Except.ok (exportFilenames name (Int.toNat ⌈frames⌉))

/-! ## C6: the export capacity guard -/

/-- C6, confirmed.  Whenever the computed frame count exceeds
`MAX_EXPORT_FRAMES`, exporting without `force` raises
`FrameOverflowError` — and since the guard precedes the frame loop, the
error result carries no written frame; the same export with `force` set
proceeds and writes its files. -/
theorem export_capacity_guard (name : String) (pre post fps : ℚ)
    (groupDurs : List ℚ) (repeats : ℕ) (expo_dur : Option ℚ)
    (hover : (MAX_EXPORT_FRAMES : ℚ) <
      exportFrames pre post fps groupDurs repeats expo_dur) :
    CkgProj.export name pre post fps groupDurs repeats expo_dur false =
      Except.error ⟨exportFrames pre post fps groupDurs repeats expo_dur⟩ ∧
    CkgProj.export name pre post fps groupDurs repeats expo_dur true =
      Except.ok (exportFilenames name
        (Int.toNat ⌈exportFrames pre post fps groupDurs repeats expo_dur⌉)) := by
  unfold CkgProj.export
  constructor
  · rw [if_pos ⟨hover, by simp⟩]
  · rw [if_neg (by simp)]

/-- C6, witness: a single 1001-second group at 1 fps overflows the
1000-frame ceiling. -/
theorem export_capacity_guard_witness :
    (MAX_EXPORT_FRAMES : ℚ) < exportFrames 0 0 1 [1001] 1 none ∧
    (CkgProj.export "big" 0 0 1 [1001] 1 none false =
       Except.error ⟨exportFrames 0 0 1 [1001] 1 none⟩ ∧
     CkgProj.export "big" 0 0 1 [1001] 1 none true =
       Except.ok (exportFilenames "big"
         (Int.toNat ⌈exportFrames 0 0 1 [1001] 1 none⌉))) :=
  ⟨by decide, export_capacity_guard "big" 0 0 1 [1001] 1 none (by decide)⟩

/-! ## C5: exported filenames -/

theorem charVal_digitChar : ∀ d : ℕ, d < 10 → (digitChar d).toNat - 48 = d := by
  decide

theorem map_charVal_reprChars (n : ℕ) :
    (reprChars n).map (fun c => c.toNat - 48) =
      if n = 0 then [0] else (Nat.digits 10 n).reverse := by
  by_cases h : n = 0
  · subst h
    decide
  · rw [reprChars, if_neg h, if_neg h, pyDigits_eq, List.map_map]
    have hmem : ∀ d ∈ (Nat.digits 10 n).reverse,
        ((fun c : Char => c.toNat - 48) ∘ digitChar) d = d := by
      intro d hd
      exact charVal_digitChar d
        (Nat.digits_lt_base (by norm_num) (List.mem_reverse.mp hd))
    rw [List.map_congr_left hmem]
    exact List.map_id' _

theorem ofDigits_replicate_zero (k : ℕ) :
    Nat.ofDigits 10 (List.replicate k 0) = 0 := by
  induction k with
  | zero => rfl
  | succ k ih =>
    rw [List.replicate_succ, Nat.ofDigits_cons, ih]

theorem readIndex_frameIndexField (frames i : ℕ) (h2 : i < frames) :
    readIndex (frameIndexField frames i) = i := by
  rw [readIndex, frameIndexField, zfill, List.map_append, List.map_replicate]
  have hz : '0'.toNat - 48 = 0 := by decide
  rw [hz, List.reverse_append, List.reverse_replicate, map_charVal_reprChars]
  by_cases h : i = 0
  · subst h
    rw [if_pos rfl]
    show Nat.ofDigits 10 (0 :: List.replicate _ 0) = 0
    rw [Nat.ofDigits_cons, ofDigits_replicate_zero]
  · rw [if_neg h, List.reverse_reverse, Nat.ofDigits_append,
      Nat.ofDigits_digits, ofDigits_replicate_zero]
    ring

theorem length_reprChars (n : ℕ) :
    (reprChars n).length = if n = 0 then 1 else (Nat.digits 10 n).length := by
  by_cases h : n = 0
  · subst h
    rfl
  · rw [reprChars, if_neg h, if_neg h, List.length_map, pyDigits_eq,
      List.length_reverse]

theorem length_frameIndexField (frames i : ℕ) (h1 : 1 ≤ frames)
    (h2 : i < frames) :
    (frameIndexField frames i).length = numdigits ((frames : ℤ) - 1) := by
  have hcast : ((frames : ℤ) - 1) = ((frames - 1 : ℕ) : ℤ) := by omega
  have hw1 : 1 ≤ numdigits ((frames : ℤ) - 1) := by
    rw [numdigits]
    split <;> omega
  have hle : (reprChars i).length ≤ numdigits ((frames : ℤ) - 1) := by
    rw [length_reprChars]
    by_cases h : i = 0
    · rw [if_pos h]
      exact hw1
    · rw [if_neg h]
      have hm : (frames - 1 : ℕ) ≠ 0 := by omega
      have hnd : numdigits ((frames : ℤ) - 1) = Nat.log 10 (frames - 1) + 1 := by
        rw [hcast, numdigits, if_neg (by exact_mod_cast hm), Int.natAbs_ofNat]
      rw [hnd, Nat.digits_len 10 i (by norm_num) h]
      have hlog : Nat.log 10 i ≤ Nat.log 10 (frames - 1) :=
        Nat.log_mono_right (by omega)
      omega
  rw [frameIndexField, zfill, List.length_append, List.length_replicate]
  omega

/-- C5, the code evaluated at the failing input.  On a forced export of
`N = 1001` frames the source pads every index to width
`numdigits(1000) = int(math.log(1000, 10)) + 1 = 3`, because the
binary-float logarithm returns `2.9999999999999996` instead of 3; the
documented digit count of 1000 is 4.  With width 3, `zfill` pads counts
0-999 to 3 characters but leaves `repr(1000)` at 4 characters, so the
padding width of the written filenames is not constant (each index still
reads back correctly). -/
theorem numdigits_padding_bug_evaluation :
    (zfill 3 (reprChars 999)).length = 3 ∧
    (zfill 3 (reprChars 1000)).length = 4 ∧
    readIndex (zfill 3 (reprChars 999)) = 999 ∧
    readIndex (zfill 3 (reprChars 1000)) = 1000 := by decide

/-- Intended behaviour of the export filenames (with `numdigits` as its
documentation specifies): the index fields of the files written by an
export of `frames ≥ 1` frames read back as exactly `0 .. frames-1`, each
zero-padded to the constant width `numdigits(frames-1)`; and the concrete
scenario: a project with two groups of total duration 3 s at 30 fps
exported with `expo_dur = Infinity` writes exactly 90 files, `proj00.png`
through `proj89.png`. -/
theorem export_filename_roundtrip :
    (∀ frames i : ℕ, 1 ≤ frames → i < frames →
      readIndex (frameIndexField frames i) = i ∧
      (frameIndexField frames i).length = numdigits ((frames : ℤ) - 1)) ∧
    (∀ frames : ℕ,
      (List.range frames).map (fun i => readIndex (frameIndexField frames i)) =
        List.range frames) ∧
    (exportFrames 0 0 30 [1, 2] 1 none = 90 ∧
     (exportFilenames "proj" 90).length = 90 ∧
     framePath "proj" 90 0 = "proj00.png" ∧
     framePath "proj" 90 89 = "proj89.png") := by
  have hnum89 : numdigits (((90 : ℕ) : ℤ) - 1) = 2 := by
    rw [show (((90 : ℕ) : ℤ) - 1) = 89 by norm_num, numdigits]
    have hlog : Nat.log 10 89 = 1 :=
      Nat.log_eq_of_pow_le_of_lt_pow (by norm_num) (by norm_num)
    norm_num [hlog]
  refine ⟨?_, ?_, ?_, ?_, ?_, ?_⟩
  · intro frames i hf hi
    exact ⟨readIndex_frameIndexField frames i hi,
      length_frameIndexField frames i hf hi⟩
  · intro frames
    have hmem : ∀ i ∈ List.range frames,
        readIndex (frameIndexField frames i) = i := fun i hi =>
      readIndex_frameIndexField frames i (List.mem_range.mp hi)
    rw [List.map_congr_left hmem]
    exact List.map_id' _
  · decide
  · rw [exportFilenames, List.length_map, List.length_range]
  · rw [framePath, frameIndexField, hnum89]
    decide
  · rw [framePath, frameIndexField, hnum89]
    decide

/-- Concrete instance of the intended-behaviour roundtrip at `frames = 90`, `i = 89`. -/
theorem export_filename_roundtrip_witness :
    ((1 : ℕ) ≤ 90 ∧ (89 : ℕ) < 90) ∧
    (readIndex (frameIndexField 90 89) = 89 ∧
     (frameIndexField 90 89).length = numdigits (((90 : ℕ) : ℤ) - 1)) :=
  ⟨⟨by decide, by decide⟩,
   export_filename_roundtrip.1 90 89 (by decide) (by decide)⟩

/-! ## C4: the display-group pre/disp/post state machine

From the earlier revision's `core.py` (`CkgDisplayGroup.reset`, lines
537-558; `CkgDisplayGroup.update`, lines 569-599).  The contained shapes'
updates and the serial/parallel signal callouts touch none of the counters
or flags and are omitted.  A frame `n` is drawn with the state reached
after `n` calls of `update` (the old revision's main loop draws each group
before updating it). -/

/-- The counters and flags of the old revision's `CkgDisplayGroup`. -/
structure GroupState where
  pre_count : ℕ
  disp_count : ℕ
  post_count : ℕ
  disp_over : Bool
  visible : Bool
deriving DecidableEq, Repr

/-- Source `CkgDisplayGroup.reset`: zero the counters; start visible exactly when
`pre == 0 and disp > 0`; start with `disp` over when
`pre == 0 and disp == 0`. -/
def CkgDisplayGroup.reset (pre disp : ℚ) : GroupState :=
  { pre_count := 0, disp_count := 0, post_count := 0,
    disp_over := decide (pre = 0 ∧ disp = 0),
    visible := decide (pre = 0 ∧ 0 < disp) }

/-- The second and third branches of `CkgDisplayGroup.update`: advance the
`disp` counter while visible (hiding the group and ending `disp` once
`disp_count >= disp*fps`), then advance the `pre` counter while not yet
visible (showing the group once `pre_count >= pre*fps`).  The third branch
tests the state as mutated by the second. -/
def dispGroupSteps23 (pre disp fps : ℚ) (st : GroupState) : GroupState :=
  let st1 :=
    if st.visible ∧ ¬st.disp_over then
      let dc := st.disp_count + 1
      if disp * fps ≤ (dc : ℚ) then
        { st with disp_count := dc, visible := false, disp_over := true }
      else { st with disp_count := dc }
    else st
  if ¬st1.visible ∧ ¬st1.disp_over then
    let pc := st1.pre_count + 1
    if pre * fps ≤ (pc : ℚ) then { st1 with pre_count := pc, visible := true }
    else { st1 with pre_count := pc }
  else st1

/-- Source `CkgDisplayGroup.update`: once `disp` is over, advance the `post`
counter and return `True` (group ended) as soon as
`post_count >= post*fps`; otherwise fall through to the remaining
branches. -/
def CkgDisplayGroup.update (pre disp post fps : ℚ) (st : GroupState) :
    GroupState × Bool :=
  if st.disp_over then
    let st1 := { st with post_count := st.post_count + 1 }
    if post * fps ≤ (st1.post_count : ℚ) then (st1, true)
    else (dispGroupSteps23 pre disp fps st1, false)
  else (dispGroupSteps23 pre disp fps st, false)

/-- State after `n` calls of `update` from a fresh `reset`. -/
def groupRun (pre disp post fps : ℚ) : ℕ → GroupState
  | 0 => CkgDisplayGroup.reset pre disp
  | n + 1 =>
    (CkgDisplayGroup.update pre disp post fps (groupRun pre disp post fps n)).1

/-- The closed form of the run: `P` pre frames, then `D` visible frames,
then post counting. -/
def expGroupState (P D : ℕ) (n : ℕ) : GroupState :=
  if n < P then
    { pre_count := n, disp_count := 0, post_count := 0,
      disp_over := false, visible := false }
  else if n < P + D then
    { pre_count := P, disp_count := n - P, post_count := 0,
      disp_over := false, visible := true }
  else
    { pre_count := P, disp_count := D, post_count := n - P - D,
      disp_over := true, visible := false }

theorem expGroupState_step (P D : ℕ) (hD1 : 1 ≤ D) (pre disp post fps : ℚ)
    (hP : ∀ m : ℕ, pre * fps ≤ (m : ℚ) ↔ P ≤ m)
    (hD : ∀ m : ℕ, disp * fps ≤ (m : ℚ) ↔ D ≤ m) (n : ℕ) :
    (CkgDisplayGroup.update pre disp post fps (expGroupState P D n)).1 =
      expGroupState P D (n + 1) := by
  by_cases h1 : n < P
  · rw [show expGroupState P D n =
      { pre_count := n, disp_count := 0, post_count := 0,
        disp_over := false, visible := false } from by
        rw [expGroupState, if_pos h1]]
    by_cases h2 : n + 1 < P
    · have hc : ¬ pre * fps ≤ ((n : ℚ) + 1) := by
        rw [show ((n : ℚ) + 1) = ((n + 1 : ℕ) : ℚ) by push_cast; ring, hP]
        omega
      simp [CkgDisplayGroup.update, dispGroupSteps23, hc, expGroupState,
        if_pos h2]
    · have he : n + 1 = P := by omega
      have hc : pre * fps ≤ ((n : ℚ) + 1) := by
        rw [show ((n : ℚ) + 1) = ((n + 1 : ℕ) : ℚ) by push_cast; ring, hP]
        omega
      have hcP : pre * fps ≤ ((P : ℕ) : ℚ) := (hP P).mpr le_rfl
      simp [CkgDisplayGroup.update, dispGroupSteps23, hc, hcP, expGroupState,
        if_neg h2, if_pos (show n + 1 < P + D by omega), he,
        show 0 < D by omega]
  · by_cases h2 : n < P + D
    · rw [show expGroupState P D n =
        { pre_count := P, disp_count := n - P, post_count := 0,
          disp_over := false, visible := true } from by
          rw [expGroupState, if_neg h1, if_pos h2]]
      by_cases h3 : n + 1 < P + D
      · have hc : ¬ disp * fps ≤ ((n - P : ℕ) : ℚ) + 1 := by
          rw [show (((n - P : ℕ) : ℚ) + 1) = ((n - P + 1 : ℕ) : ℚ) by
            push_cast; ring, hD]
          omega
        simp [CkgDisplayGroup.update, dispGroupSteps23, hc, expGroupState,
          if_neg (show ¬ n + 1 < P by omega), if_pos h3,
          show n + 1 - P = n - P + 1 by omega]
      · have hc : disp * fps ≤ ((n - P : ℕ) : ℚ) + 1 := by
          rw [show (((n - P : ℕ) : ℚ) + 1) = ((n - P + 1 : ℕ) : ℚ) by
            push_cast; ring, hD]
          omega
        have hcD : disp * fps ≤ ((D : ℕ) : ℚ) := (hD D).mpr le_rfl
        simp [CkgDisplayGroup.update, dispGroupSteps23, hc, hcD, expGroupState,
          if_neg (show ¬ n + 1 < P by omega), if_neg h3,
          show n - P + 1 = D by omega, show n + 1 - P - D = 0 by omega]
    · rw [show expGroupState P D n =
        { pre_count := P, disp_count := D, post_count := n - P - D,
          disp_over := true, visible := false } from by
          rw [expGroupState, if_neg h1, if_neg h2]]
      by_cases hc : post * fps ≤ ((n - P - D : ℕ) : ℚ) + 1
      · simp [CkgDisplayGroup.update, dispGroupSteps23, hc, expGroupState,
          if_neg (show ¬ n + 1 < P by omega),
          if_neg (show ¬ n + 1 < P + D by omega),
          show n + 1 - P - D = n - P - D + 1 by omega]
      · simp [CkgDisplayGroup.update, dispGroupSteps23, hc, expGroupState,
          if_neg (show ¬ n + 1 < P by omega),
          if_neg (show ¬ n + 1 < P + D by omega),
          show n + 1 - P - D = n - P - D + 1 by omega]

/-- A rational threshold is first reached by the integer counter at the
ceiling of the threshold. -/
theorem ceil_le_iff (q : ℚ) (m : ℕ) : q ≤ (m : ℚ) ↔ (⌈q⌉).toNat ≤ m := by
  constructor
  · intro h
    have h2 : ⌈q⌉ ≤ (m : ℤ) := Int.ceil_le.mpr (by exact_mod_cast h)
    omega
  · intro h
    have h2 : ⌈q⌉ ≤ (m : ℤ) := by omega
    exact_mod_cast Int.ceil_le.mp h2

/-- Closed form of the group run: with `P = ⌈pre·fps⌉` and
`D = ⌈disp·fps⌉` the machine spends `P` updates in `pre`, then `D`
visible updates, then counts `post`. -/
theorem groupRun_closed (pre disp post fps : ℚ) (hpre : 0 ≤ pre)
    (hdisp : 0 < disp) (hfps : 0 < fps) (n : ℕ) :
    groupRun pre disp post fps n =
      expGroupState (⌈pre * fps⌉).toNat (⌈disp * fps⌉).toNat n := by
  set P := (⌈pre * fps⌉).toNat with hPdef
  set D := (⌈disp * fps⌉).toNat with hDdef
  have hP : ∀ m : ℕ, pre * fps ≤ (m : ℚ) ↔ P ≤ m := fun m => ceil_le_iff _ m
  have hD : ∀ m : ℕ, disp * fps ≤ (m : ℚ) ↔ D ≤ m := fun m => ceil_le_iff _ m
  have hD1 : 1 ≤ D := by
    have h0 : (0 : ℤ) < ⌈disp * fps⌉ := Int.ceil_pos.mpr (by positivity)
    omega
  have hpre0 : pre = 0 ↔ P = 0 := by
    constructor
    · intro h
      have h2 : pre * fps ≤ ((0 : ℕ) : ℚ) := by
        rw [h]
        norm_num
      have := (hP 0).mp h2
      omega
    · intro h
      have h2 : pre * fps ≤ ((0 : ℕ) : ℚ) := (hP 0).mpr (by omega)
      have h3 : pre * fps ≤ 0 := by exact_mod_cast h2
      by_contra hne
      have hppos : 0 < pre := lt_of_le_of_ne hpre (Ne.symm hne)
      nlinarith
  induction n with
  | zero =>
    rw [groupRun, CkgDisplayGroup.reset, expGroupState]
    by_cases hp : P = 0
    · rw [if_neg (by omega), if_pos (by omega)]
      have h1 : pre = 0 := hpre0.mpr hp
      simp [h1, hp, ne_of_gt hdisp, hdisp]
    · rw [if_pos (by omega)]
      have h1 : pre ≠ 0 := fun h => hp (hpre0.mp h)
      simp [h1]
  | succ n ih =>
    rw [groupRun, ih, expGroupState_step P D hD1 pre disp post fps hP hD n]

/-- Flag `visible` holds exactly on the `D` frames following the `P` pre
frames. -/
theorem groupRun_visible_iff (pre disp post fps : ℚ) (hpre : 0 ≤ pre)
    (hdisp : 0 < disp) (hfps : 0 < fps) (n : ℕ) :
    ((groupRun pre disp post fps n).visible = true ↔
      (⌈pre * fps⌉).toNat ≤ n ∧
        n < (⌈pre * fps⌉).toNat + (⌈disp * fps⌉).toNat) := by
  rw [groupRun_closed pre disp post fps hpre hdisp hfps n, expGroupState]
  split_ifs with h1 h2
  · simp
    omega
  · simp
    omega
  · simp
    omega

/-- The update first returns `True` (group over) on update number
`P + D + max(⌈post·fps⌉, 1)`. -/
theorem groupRun_ret_iff (pre disp post fps : ℚ) (hpre : 0 ≤ pre)
    (hdisp : 0 < disp) (hfps : 0 < fps) (n : ℕ) :
    ((CkgDisplayGroup.update pre disp post fps
        (groupRun pre disp post fps n)).2 = true ↔
      (⌈pre * fps⌉).toNat + (⌈disp * fps⌉).toNat +
        max (⌈post * fps⌉).toNat 1 ≤ n + 1) := by
  set P := (⌈pre * fps⌉).toNat with hPdef
  set D := (⌈disp * fps⌉).toNat with hDdef
  set Ep := (⌈post * fps⌉).toNat with hEdef
  have hEp : ∀ m : ℕ, post * fps ≤ (m : ℚ) ↔ Ep ≤ m := fun m => ceil_le_iff _ m
  rw [groupRun_closed pre disp post fps hpre hdisp hfps n]
  by_cases hreg : P + D ≤ n
  · rw [show expGroupState P D n =
      { pre_count := P, disp_count := D, post_count := n - P - D,
        disp_over := true, visible := false } from by
        rw [expGroupState, if_neg (by omega), if_neg (by omega)]]
    by_cases hc : post * fps ≤ ((n - P - D : ℕ) : ℚ) + 1
    · have hcc : Ep ≤ n - P - D + 1 := by
        rw [show (((n - P - D : ℕ) : ℚ) + 1) = ((n - P - D + 1 : ℕ) : ℚ) by
          push_cast; ring] at hc
        exact (hEp _).mp hc
      simp [CkgDisplayGroup.update, hc]
      omega
    · have hcc : ¬ Ep ≤ n - P - D + 1 := fun h => hc (by
        rw [show (((n - P - D : ℕ) : ℚ) + 1) = ((n - P - D + 1 : ℕ) : ℚ) by
          push_cast; ring]
        exact (hEp _).mpr h)
      simp [CkgDisplayGroup.update, hc]
      omega
  · have hov : (expGroupState P D n).disp_over = false := by
      rw [expGroupState]
      split_ifs with a b
      · rfl
      · rfl
      · exact absurd (by omega) hreg
    simp [CkgDisplayGroup.update, hov]
    omega

/-- C4, counterexample.  The claim predicts `round(disp·fps)` visible
update steps out of `round((pre+disp+post)·fps)` total.  Take `pre = 0`,
`disp = 0.44`, `post = 0`, `fps = 10`: `round(0.44·10) = 4`, but the code
keeps the group visible until `disp_count >= disp*fps`, i.e. for
`⌈4.4⌉ = 5` frames (frames 0-4), and the group is over only on the 6th
update — 5 visible frames, not 4. -/
theorem group_visible_counterexample :
    (0 : ℚ) ≤ 0 ∧ (0 : ℚ) < 11 / 25 ∧ (0 : ℚ) < 10 ∧
    pyRound ((11 / 25 : ℚ) * 10) = 4 ∧
    pyRound ((0 + 11 / 25 + 0 : ℚ) * 10) = 4 ∧
    ((List.range 6).countP fun n => (groupRun 0 (11 / 25) 0 10 n).visible) = 5 ∧
    (CkgDisplayGroup.update 0 (11 / 25) 0 10 (groupRun 0 (11 / 25) 0 10 5)).2 =
      true ∧
    (∀ m < 5,
      (CkgDisplayGroup.update 0 (11 / 25) 0 10 (groupRun 0 (11 / 25) 0 10 m)).2 =
        false) := by
  decide

/-- C4, amended.  For finite durations with `disp > 0` run at `fps > 0`:
`visible` is true for exactly `⌈disp·fps⌉` of the update steps — namely
frames `⌈pre·fps⌉ .. ⌈pre·fps⌉+⌈disp·fps⌉-1`, independent of `pre` and
`post` beyond the start offset — and the group reports over on update
number `⌈pre·fps⌉+⌈disp·fps⌉+max(⌈post·fps⌉,1)`; in particular for
`pre = 1`, `disp = 2`, `post = 1` at `fps = 10`, `visible` holds exactly
on frames 10 through 29 and the group becomes over at frame 40. -/
theorem group_visible_amended (pre disp post fps : ℚ)
    (hpre : 0 ≤ pre) (hdisp : 0 < disp) (hpost : 0 ≤ post) (hfps : 0 < fps) :
    (∀ n : ℕ, ((groupRun pre disp post fps n).visible = true ↔
      (⌈pre * fps⌉).toNat ≤ n ∧
        n < (⌈pre * fps⌉).toNat + (⌈disp * fps⌉).toNat)) ∧
    ((Finset.range ((⌈pre * fps⌉).toNat + (⌈disp * fps⌉).toNat +
          max (⌈post * fps⌉).toNat 1)).filter
        (fun n => (groupRun pre disp post fps n).visible = true)).card =
      (⌈disp * fps⌉).toNat ∧
    ((CkgDisplayGroup.update pre disp post fps (groupRun pre disp post fps
        ((⌈pre * fps⌉).toNat + (⌈disp * fps⌉).toNat +
          max (⌈post * fps⌉).toNat 1 - 1))).2 = true ∧
     ∀ m < (⌈pre * fps⌉).toNat + (⌈disp * fps⌉).toNat +
          max (⌈post * fps⌉).toNat 1 - 1,
       (CkgDisplayGroup.update pre disp post fps
         (groupRun pre disp post fps m)).2 = false) ∧
    (∀ n : ℕ, ((groupRun 1 2 1 10 n).visible = true ↔ 10 ≤ n ∧ n ≤ 29)) ∧
    ((CkgDisplayGroup.update 1 2 1 10 (groupRun 1 2 1 10 39)).2 = true ∧
     ∀ m < 39, (CkgDisplayGroup.update 1 2 1 10 (groupRun 1 2 1 10 m)).2 =
       false) := by
  have e1 : (⌈(1 : ℚ) * 10⌉).toNat = 10 := by
    rw [show (1 : ℚ) * 10 = ((10 : ℕ) : ℚ) by norm_num, Int.ceil_natCast]
    rfl
  have e2 : (⌈(2 : ℚ) * 10⌉).toNat = 20 := by
    rw [show (2 : ℚ) * 10 = ((20 : ℕ) : ℚ) by norm_num, Int.ceil_natCast]
    rfl
  refine ⟨fun n => groupRun_visible_iff pre disp post fps hpre hdisp hfps n,
    ?_, ⟨?_, ?_⟩, ?_, ⟨?_, ?_⟩⟩
  · rw [Finset.filter_congr (fun n _ =>
      groupRun_visible_iff pre disp post fps hpre hdisp hfps n)]
    rw [show ((Finset.range ((⌈pre * fps⌉).toNat + (⌈disp * fps⌉).toNat +
          max (⌈post * fps⌉).toNat 1)).filter
        (fun n => (⌈pre * fps⌉).toNat ≤ n ∧
          n < (⌈pre * fps⌉).toNat + (⌈disp * fps⌉).toNat)) =
        Finset.Ico (⌈pre * fps⌉).toNat
          ((⌈pre * fps⌉).toNat + (⌈disp * fps⌉).toNat) from by
      ext x
      simp only [Finset.mem_filter, Finset.mem_range, Finset.mem_Ico]
      omega]
    rw [Nat.card_Ico]
    omega
  · rw [groupRun_ret_iff pre disp post fps hpre hdisp hfps]
    omega
  · intro m hm
    have hiff := groupRun_ret_iff pre disp post fps hpre hdisp hfps m
    cases hb : (CkgDisplayGroup.update pre disp post fps
        (groupRun pre disp post fps m)).2
    · rfl
    · exact absurd (hiff.mp hb) (by omega)
  · intro n
    have hiff := groupRun_visible_iff 1 2 1 10 (by norm_num) (by norm_num)
      (by norm_num) n
    rw [e1, e2] at hiff
    rw [hiff]
    constructor <;> (intro h; omega)
  · have hiff := groupRun_ret_iff 1 2 1 10 (by norm_num) (by norm_num)
      (by norm_num) 39
    rw [e1, e2] at hiff
    exact hiff.mpr (by norm_num)
  · intro m hm
    have hiff := groupRun_ret_iff 1 2 1 10 (by norm_num) (by norm_num)
      (by norm_num) m
    rw [e1, e2] at hiff
    cases hb : (CkgDisplayGroup.update 1 2 1 10 (groupRun 1 2 1 10 m)).2
    · rfl
    · exact absurd (hiff.mp hb) (by omega)

/-- C4, witness for the amended theorem at `pre = 1`, `disp = 2`,
`post = 1`, `fps = 10`. -/
theorem group_visible_amended_witness :
    ((0 : ℚ) ≤ 1 ∧ (0 : ℚ) < 2 ∧ (0 : ℚ) ≤ 1 ∧ (0 : ℚ) < 10) ∧
    ((∀ n : ℕ, ((groupRun 1 2 1 10 n).visible = true ↔
        (⌈(1 : ℚ) * 10⌉).toNat ≤ n ∧
          n < (⌈(1 : ℚ) * 10⌉).toNat + (⌈(2 : ℚ) * 10⌉).toNat)) ∧
     ((Finset.range ((⌈(1 : ℚ) * 10⌉).toNat + (⌈(2 : ℚ) * 10⌉).toNat +
           max (⌈(1 : ℚ) * 10⌉).toNat 1)).filter
         (fun n => (groupRun 1 2 1 10 n).visible = true)).card =
       (⌈(2 : ℚ) * 10⌉).toNat ∧
     ((CkgDisplayGroup.update 1 2 1 10 (groupRun 1 2 1 10
         ((⌈(1 : ℚ) * 10⌉).toNat + (⌈(2 : ℚ) * 10⌉).toNat +
           max (⌈(1 : ℚ) * 10⌉).toNat 1 - 1))).2 = true ∧
      ∀ m < (⌈(1 : ℚ) * 10⌉).toNat + (⌈(2 : ℚ) * 10⌉).toNat +
           max (⌈(1 : ℚ) * 10⌉).toNat 1 - 1,
        (CkgDisplayGroup.update 1 2 1 10 (groupRun 1 2 1 10 m)).2 = false) ∧
     (∀ n : ℕ, ((groupRun 1 2 1 10 n).visible = true ↔ 10 ≤ n ∧ n ≤ 29)) ∧
     ((CkgDisplayGroup.update 1 2 1 10 (groupRun 1 2 1 10 39)).2 = true ∧
      ∀ m < 39, (CkgDisplayGroup.update 1 2 1 10 (groupRun 1 2 1 10 m)).2 =
        false)) :=
  ⟨⟨by norm_num, by norm_num, by norm_num, by norm_num⟩,
   group_visible_amended 1 2 1 10 (by norm_num) (by norm_num) (by norm_num)
     (by norm_num)⟩

/-! ## Decimal context rounding and the precision-faithful phase update

The `decimal` default context rounds every arithmetic result to 28
significant digits with `ROUND_HALF_EVEN`.  `decRound28` models that
rounding exactly, and `CheckerBoard.updateDec` is `CheckerBoard.update`
with the context rounding applied to each multiplication, division and
addition, as the source interpreter does.  The remainder `%= 360` and the
floor division `// 180` are exact at these magnitudes and introduce no
rounding of their own. -/

/-- Round a rational to the nearest integer, ties to even
(`decimal.ROUND_HALF_EVEN`). -/
def roundHalfEven (q : ℚ) : ℤ :=
  let n := ⌊q⌋
  let f := q - (n : ℚ)
  if f < 1 / 2 then n
  else if 1 / 2 < f then n + 1
  else if 2 ∣ n then n else n + 1

/-- Integer powers of ten in `ℚ`, in a kernel-reducible form. -/
def qpow10 (d : ℤ) : ℚ :=
  if 0 ≤ d then (((10 : ℕ) ^ d.toNat : ℕ) : ℚ)
  else 1 / (((10 : ℕ) ^ (-d).toNat : ℕ) : ℚ)

/-- The adjusted exponent `⌊log10 q⌋` of a positive rational, computed
from the decimal digit counts of its numerator and denominator. -/
def floorLog10 (q : ℚ) : ℤ :=
  let la := (pyDigits q.num.natAbs).length
  let lb := (pyDigits q.den).length
  let d : ℤ := (la : ℤ) - (lb : ℤ)
  if qpow10 d ≤ q then d else d - 1

/-- Rounding of a rational to 28 significant decimal digits, half to
even: the nearest multiple of `10 ^ (e - 27)`, where `e` is the adjusted
exponent of the magnitude.  This is the value the `decimal` default
context assigns to an exact arithmetic result. -/
def decRound28 (q : ℚ) : ℚ :=
  if q = 0 then 0
  else
    let e : ℤ := floorLog10 |q|
    if 27 ≤ e then
      let u : ℚ := (((10 : ℕ) ^ (e - 27).toNat : ℕ) : ℚ)
      ((roundHalfEven (q / u) : ℤ) : ℚ) * u
    else
      let u : ℚ := (((10 : ℕ) ^ (27 - e).toNat : ℕ) : ℚ)
      ((roundHalfEven (q * u) : ℤ) : ℚ) / u

/-- Source `CheckerBoard.update(fps)` with `INT_HALF_PERIODS = True`, with
the decimal context rounding of each arithmetic operation made explicit:
`frames_per_half_period = round(fps / (freq * 2))` (the product and the
quotient each round to 28 significant digits before Python 2's `round`
applies), `degs_per_frame = 180 / Decimal(frames_per_half_period)` rounds
likewise, as does the phase increment `_cur_phase += degs_per_frame`; the
wrap `%= 360` and the half-index floors are exact.  A rounded half-period
of `0` raises `decimal.DivisionByZero`, modelled by `none`. -/
def CheckerBoard.updateDec (freq fps : ℚ) (st : CBState) : Option CBState :=
  let prev := st.cur_phase
  if freq ≠ 0 then
    let fphp : ℤ := pyRound (decRound28 (fps / decRound28 (freq * 2)))
    if fphp = 0 then none
    else
      let degs : ℚ := decRound28 (180 / (fphp : ℚ))
      let c1 := decRound28 (st.cur_phase + degs)
      let cur := if 360 ≤ c1 then decMod c1 360 else c1
      some { cur_phase := cur, prev_phase := prev,
             flipped := decide (⌊cur / 180⌋ ≠ ⌊prev / 180⌋) }
  else
    some { cur_phase := st.cur_phase, prev_phase := prev,
           flipped := decide (⌊st.cur_phase / 180⌋ ≠ ⌊prev / 180⌋) }

/-- Iterate: `n` successive calls of `CheckerBoard.updateDec`; `none` once
any call raises. -/
def CheckerBoard.updateDecN (freq fps : ℚ) : ℕ → CBState → Option CBState
  | 0, st => some st
  | n + 1, st => (CheckerBoard.updateDecN freq fps n st).bind (CheckerBoard.updateDec freq fps)

/-- Function `qpow10` agrees with the integer power. -/
theorem qpow10_eq (d : ℤ) : qpow10 d = (10 : ℚ) ^ d := by
  rw [qpow10]
  by_cases h : 0 ≤ d
  · rw [if_pos h]
    push_cast
    rw [← zpow_natCast, Int.toNat_of_nonneg h]
  · rw [if_neg h]
    push_cast
    rw [← zpow_natCast, Int.toNat_of_nonneg (by omega : (0 : ℤ) ≤ -d), zpow_neg, one_div,
      inv_inv]

/-- Rounding half to even fixes the integers. -/
theorem roundHalfEven_intCast (z : ℤ) : roundHalfEven (z : ℚ) = z := by
  rw [roundHalfEven]
  norm_num [Int.floor_intCast]

/-- Every natural number is below ten to its decimal digit count. -/
theorem lt_pow_pyDigits_len (a : ℕ) : a < 10 ^ (pyDigits a).length := by
  rw [pyDigits_eq, List.length_reverse]
  exact Nat.lt_base_pow_length_digits (by norm_num)

/-- Every positive natural number reaches ten to its decimal digit count
less one. -/
theorem pow_pred_le_pyDigits (a : ℕ) (ha : a ≠ 0) :
    10 ^ ((pyDigits a).length - 1) ≤ a := by
  rw [pyDigits_eq, List.length_reverse]
  have h := Nat.base_pow_length_digits_le 10 a (by norm_num) ha
  have hlen : 1 ≤ (Nat.digits 10 a).length :=
    List.length_pos.mpr (Nat.digits_ne_nil_iff_ne_zero.mpr ha)
  have h2 : 10 * 10 ^ ((Nat.digits 10 a).length - 1) ≤ 10 * a := by
    rw [← pow_succ', show (Nat.digits 10 a).length - 1 + 1 = (Nat.digits 10 a).length by omega]
    exact h
  omega

/-- The adjusted exponent is a lower bound: `10 ^ floorLog10 q ≤ q` for
positive `q`. -/
theorem le_floorLog10 (q : ℚ) (hq : 0 < q) : (10 : ℚ) ^ floorLog10 q ≤ q := by
  simp only [floorLog10]
  by_cases h : qpow10 (((pyDigits q.num.natAbs).length : ℤ) - ((pyDigits q.den).length : ℤ)) ≤ q
  · rw [if_pos h, ← qpow10_eq]
    exact h
  · rw [if_neg h]
    set la := (pyDigits q.num.natAbs).length with hla
    set lb := (pyDigits q.den).length with hlb
    have hnum : q.num.natAbs ≠ 0 := by
      have := Rat.num_pos.mpr hq
      omega
    have hden : 0 < q.den := q.den_pos
    have h1 : ((10 : ℕ) ^ (la - 1) : ℕ) ≤ (q.num.natAbs : ℕ) := pow_pred_le_pyDigits _ hnum
    have h2 : (q.den : ℕ) < ((10 : ℕ) ^ lb : ℕ) := lt_pow_pyDigits_len q.den
    have h1Q : (10 : ℚ) ^ (la - 1) ≤ (q.num.natAbs : ℚ) := by exact_mod_cast h1
    have h2Q : (q.den : ℚ) < (10 : ℚ) ^ lb := by exact_mod_cast h2
    have hdenQ : (0 : ℚ) < (q.den : ℚ) := by exact_mod_cast hden
    have hnumQ : (0 : ℚ) < (q.num.natAbs : ℚ) := by
      have : 0 < q.num.natAbs := Nat.pos_of_ne_zero hnum
      exact_mod_cast this
    have hla1 : 1 ≤ la := by
      rw [hla, pyDigits_eq, List.length_reverse]
      exact List.length_pos.mpr (Nat.digits_ne_nil_iff_ne_zero.mpr hnum)
    have hq_eq : (q.num.natAbs : ℚ) / (q.den : ℚ) = q := by
      have hn : ((q.num.natAbs : ℕ) : ℚ) = (q.num : ℚ) := by
        rw [Nat.cast_natAbs, abs_of_nonneg (Rat.num_pos.mpr hq).le]
      rw [hn, Rat.num_div_den]
    have hpow : (10 : ℚ) ^ ((la : ℤ) - (lb : ℤ) - 1) = (10 : ℚ) ^ (la - 1) / (10 : ℚ) ^ lb := by
      rw [show (10 : ℚ) ^ (la - 1) = (10 : ℚ) ^ (((la - 1 : ℕ)) : ℤ) from (zpow_natCast _ _).symm,
        show (10 : ℚ) ^ lb = (10 : ℚ) ^ ((lb : ℕ) : ℤ) from (zpow_natCast _ _).symm,
        ← zpow_sub₀ (by norm_num : (10 : ℚ) ≠ 0)]
      congr 1
      omega
    rw [hpow, ← hq_eq]
    calc (10 : ℚ) ^ (la - 1) / (10 : ℚ) ^ lb
        ≤ (q.num.natAbs : ℚ) / (10 : ℚ) ^ lb :=
          div_le_div_of_nonneg_right h1Q (by positivity)
      _ ≤ (q.num.natAbs : ℚ) / (q.den : ℚ) :=
          div_le_div_of_nonneg_left hnumQ.le hdenQ h2Q.le

/-- Rounding to 28 significant digits fixes every integer of at most 28
digits. -/
theorem decRound28_intCast (z : ℤ) (hz : z.natAbs < 10 ^ 28) :
    decRound28 (z : ℚ) = z := by
  rcases eq_or_ne z 0 with rfl | h0
  · rw [decRound28]
    norm_num
  · have hq0 : (z : ℚ) ≠ 0 := Int.cast_ne_zero.mpr h0
    have habs : |(z : ℚ)| = (z.natAbs : ℚ) := by
      rw [Nat.cast_natAbs, Int.cast_abs]
    have he_le : floorLog10 |(z : ℚ)| ≤ 27 := by
      have h1 : (10 : ℚ) ^ floorLog10 |(z : ℚ)| ≤ |(z : ℚ)| :=
        le_floorLog10 _ (abs_pos.mpr hq0)
      have h2 : |(z : ℚ)| < (10 : ℚ) ^ (28 : ℤ) := by
        rw [habs]
        have he : ((10 ^ 28 : ℕ) : ℚ) = (10 : ℚ) ^ (28 : ℤ) := by norm_cast
        rw [← he]
        exact_mod_cast hz
      by_contra hgt
      push_neg at hgt
      have h3 : (10 : ℚ) ^ (28 : ℤ) ≤ (10 : ℚ) ^ floorLog10 |(z : ℚ)| :=
        zpow_le_zpow_right₀ (by norm_num : (1 : ℚ) ≤ 10) (by omega)
      linarith
    simp only [decRound28]
    rw [if_neg hq0]
    by_cases h27 : 27 ≤ floorLog10 |(z : ℚ)|
    · have he27 : floorLog10 |(z : ℚ)| = 27 := le_antisymm he_le h27
      rw [if_pos h27, he27]
      norm_num [roundHalfEven_intCast]
    · rw [if_neg h27]
      have hcast : (z : ℚ) * (((10 : ℕ) ^ (27 - floorLog10 |(z : ℚ)|).toNat : ℕ) : ℚ) =
          ((z * ((10 : ℕ) ^ (27 - floorLog10 |(z : ℚ)|).toNat : ℕ) : ℤ) : ℚ) := by
        push_cast
        ring
      rw [hcast, roundHalfEven_intCast]
      push_cast
      rw [mul_div_assoc, div_self (by positivity), mul_one]

/-- One `CheckerBoard.updateDec` from a wrapped phase on which the context
rounding acts as the identity advances the absolute phase by
`180 / round(fps/(2 freq))` degrees. -/
theorem updateDec_step (freq fps : ℚ) (hf : freq ≠ 0)
    (hZ1 : 1 ≤ pyRound (decRound28 (fps / decRound28 (freq * 2))))
    (hdeg : decRound28 (180 / ((pyRound (decRound28 (fps / decRound28 (freq * 2))) : ℤ) : ℚ)) =
      180 / ((pyRound (decRound28 (fps / decRound28 (freq * 2))) : ℤ) : ℚ))
    (st : CBState) (h0 : 0 ≤ st.cur_phase)
    (hst : decRound28 (st.cur_phase +
        180 / ((pyRound (decRound28 (fps / decRound28 (freq * 2))) : ℤ) : ℚ)) =
      st.cur_phase + 180 / ((pyRound (decRound28 (fps / decRound28 (freq * 2))) : ℤ) : ℚ)) :
    CheckerBoard.updateDec freq fps st =
      some { cur_phase := decMod (st.cur_phase +
               180 / ((pyRound (decRound28 (fps / decRound28 (freq * 2))) : ℤ) : ℚ)) 360,
             prev_phase := st.cur_phase,
             flipped := decide
               (⌊decMod (st.cur_phase +
                   180 / ((pyRound (decRound28 (fps / decRound28 (freq * 2))) : ℤ) : ℚ)) 360 / 180⌋ ≠
                ⌊st.cur_phase / 180⌋) } := by
  have hZ0 : pyRound (decRound28 (fps / decRound28 (freq * 2))) ≠ 0 := by omega
  have hdpos : (0 : ℚ) < 180 / ((pyRound (decRound28 (fps / decRound28 (freq * 2))) : ℤ) : ℚ) := by
    have : (0 : ℚ) < ((pyRound (decRound28 (fps / decRound28 (freq * 2))) : ℤ) : ℚ) := by
      exact_mod_cast hZ1.trans_lt' (by norm_num)
    positivity
  simp only [CheckerBoard.updateDec, if_pos hf, if_neg hZ0, hdeg, hst]
  set d := (180 : ℚ) / ((pyRound (decRound28 (fps / decRound28 (freq * 2))) : ℤ) : ℚ) with hd
  by_cases hc : 360 ≤ st.cur_phase + d
  · rw [if_pos hc]
  · rw [if_neg hc]
    rw [decMod_eq_self (st.cur_phase + d) 360 (by linarith) (lt_of_not_le hc)]

set_option maxHeartbeats 1000000 in
/-- Closed form for `n` precision-faithful updates from `reset p`, under
the hypotheses that the context rounding fixes the degrees-per-frame value
and each phase increment: the current phase is the wrapped absolute phase,
the previous phase is the one before it, and `flipped` compares their
half-indices. -/
theorem updateDecN_closed (freq fps p : ℚ) (hf : 0 < freq)
    (hZ1 : 1 ≤ pyRound (decRound28 (fps / decRound28 (freq * 2))))
    (hdeg : decRound28 (180 / ((pyRound (decRound28 (fps / decRound28 (freq * 2))) : ℤ) : ℚ)) =
      180 / ((pyRound (decRound28 (fps / decRound28 (freq * 2))) : ℤ) : ℚ))
    (hadd : ∀ n : ℕ,
      decRound28
          (phaseAt p (180 / ((pyRound (decRound28 (fps / decRound28 (freq * 2))) : ℤ) : ℚ)) n +
            180 / ((pyRound (decRound28 (fps / decRound28 (freq * 2))) : ℤ) : ℚ)) =
        phaseAt p (180 / ((pyRound (decRound28 (fps / decRound28 (freq * 2))) : ℤ) : ℚ)) n +
          180 / ((pyRound (decRound28 (fps / decRound28 (freq * 2))) : ℤ) : ℚ))
    (hp0 : 0 ≤ p) (hp1 : p < 360) (n : ℕ) :
    CheckerBoard.updateDecN freq fps n (CheckerBoard.reset p) =
      some { cur_phase :=
               phaseAt p (180 / ((pyRound (decRound28 (fps / decRound28 (freq * 2))) : ℤ) : ℚ)) n,
             prev_phase :=
               phaseAt p (180 / ((pyRound (decRound28 (fps / decRound28 (freq * 2))) : ℤ) : ℚ)) (n - 1),
             flipped := decide
               (⌊phaseAt p (180 / ((pyRound (decRound28 (fps / decRound28 (freq * 2))) : ℤ) : ℚ)) n / 180⌋ ≠
                ⌊phaseAt p (180 / ((pyRound (decRound28 (fps / decRound28 (freq * 2))) : ℤ) : ℚ)) (n - 1) / 180⌋) } := by
  set d := (180 : ℚ) / ((pyRound (decRound28 (fps / decRound28 (freq * 2))) : ℤ) : ℚ) with hd
  induction n with
  | zero =>
    simp only [CheckerBoard.updateDecN, CheckerBoard.reset, Nat.zero_sub,
      phaseAt_zero p d hp0 hp1]
    simp
  | succ n ih =>
    rw [CheckerBoard.updateDecN, ih, Option.some_bind]
    rw [updateDec_step freq fps (ne_of_gt hf) hZ1 hdeg _ (phaseAt_nonneg p d n) (hadd n)]
    simp only [Nat.add_sub_cancel]
    rw [phaseAt_step p d n]

/-- From starting phase 0 with an integer step, every wrapped phase is an
integer in `[0, 360)`. -/
theorem phaseAt_zero_int (z : ℤ) (n : ℕ) :
    ∃ m : ℤ, phaseAt 0 ((z : ℤ) : ℚ) n = (m : ℚ) ∧ 0 ≤ m ∧ m < 360 := by
  have heq : phaseAt 0 ((z : ℤ) : ℚ) n =
      (((n : ℤ) * z - 360 * ⌊(((n : ℤ) * z : ℤ) : ℚ) / 360⌋ : ℤ) : ℚ) := by
    rw [phaseAt, decMod, zero_add]
    push_cast
    ring
  refine ⟨(n : ℤ) * z - 360 * ⌊(((n : ℤ) * z : ℤ) : ℚ) / 360⌋, heq, ?_, ?_⟩
  · have h := phaseAt_nonneg 0 ((z : ℤ) : ℚ) n
    rw [heq] at h
    exact_mod_cast h
  · have h := phaseAt_lt 0 ((z : ℤ) : ℚ) n
    rw [heq] at h
    exact_mod_cast h

set_option maxHeartbeats 1000000 in
/-- C3, counterexample.  The claim states that after any multiple of
`2·fps/freq` frames the phase returns to its starting value.  At
`freq = 4`, `fps = 10` (both positive), `2·fps/freq = 5` frames; but the
integer-half-period policy rounds `fps/(2·freq) = 1.25` to one frame per
half-period, so after 5 precision-faithful updates from phase 0 the phase
is 180, not 0 (every value arising in this run has few significant
digits, so each 28-digit context rounding is the identity and the real
`Decimal` run takes exactly these values). -/
theorem flip_period_counterexample :
    (0 : ℚ) < 4 ∧ (0 : ℚ) < 10 ∧ (2 * 10 / 4 : ℚ) = 5 ∧
    CheckerBoard.updateDecN 4 10 5 (CheckerBoard.reset 0) =
      some { cur_phase := 180, prev_phase := 0, flipped := true } ∧
    (180 : ℚ) ≠ 0 := by decide

/-- C3, amended.  For every checkerboard with `freq > 0` such that the
rounded frames-per-half-period count `h = round(fps/(2·freq))` (each
decimal operation rounded to the 28-digit context) is at least 1, and
such that the context rounding is exact on the values encountered —
`180/h` reproduces itself under the rounding, as does each per-frame
phase addition — repeated `update(fps)` from any starting phase in
`[0, 360)` makes `flipped` true exactly once in every window of `h`
consecutive frames, and after any multiple of `2·h` frames the phase
returns to its starting value. -/
theorem flip_half_period_amended (freq fps p : ℚ) (hf : 0 < freq)
    (hZ1 : 1 ≤ pyRound (decRound28 (fps / decRound28 (freq * 2))))
    (hdeg : decRound28 (180 / ((pyRound (decRound28 (fps / decRound28 (freq * 2))) : ℤ) : ℚ)) =
      180 / ((pyRound (decRound28 (fps / decRound28 (freq * 2))) : ℤ) : ℚ))
    (hadd : ∀ n : ℕ,
      decRound28
          (phaseAt p (180 / ((pyRound (decRound28 (fps / decRound28 (freq * 2))) : ℤ) : ℚ)) n +
            180 / ((pyRound (decRound28 (fps / decRound28 (freq * 2))) : ℤ) : ℚ)) =
        phaseAt p (180 / ((pyRound (decRound28 (fps / decRound28 (freq * 2))) : ℤ) : ℚ)) n +
          180 / ((pyRound (decRound28 (fps / decRound28 (freq * 2))) : ℤ) : ℚ))
    (hp0 : 0 ≤ p) (hp1 : p < 360) :
    (∀ k : ℕ,
      ∃ st, CheckerBoard.updateDecN freq fps
          (2 * (pyRound (decRound28 (fps / decRound28 (freq * 2)))).toNat * k)
          (CheckerBoard.reset p) = some st ∧ st.cur_phase = p) ∧
    (∀ m : ℕ, ∃! n : ℕ,
      (m < n ∧ n ≤ m + (pyRound (decRound28 (fps / decRound28 (freq * 2)))).toNat) ∧
      ∃ st, CheckerBoard.updateDecN freq fps n (CheckerBoard.reset p) = some st ∧
        st.flipped = true) := by
  set hZ := pyRound (decRound28 (fps / decRound28 (freq * 2))) with hhZ
  set d : ℚ := 180 / ((hZ : ℤ) : ℚ) with hd
  have hZQ : (1 : ℚ) ≤ ((hZ : ℤ) : ℚ) := by exact_mod_cast hZ1
  have hd0 : 0 < d := by
    rw [hd]
    positivity
  have hd180 : d ≤ 180 := by
    rw [hd, div_le_iff₀ (by linarith)]
    nlinarith
  have hcast : ((hZ.toNat : ℕ) : ℚ) = ((hZ : ℤ) : ℚ) := by
    have h := Int.toNat_of_nonneg (show (0 : ℤ) ≤ hZ by omega)
    exact_mod_cast congrArg (fun z : ℤ => (z : ℚ)) h
  have hhd : ((hZ.toNat : ℕ) : ℚ) * d = 180 := by
    rw [hcast, hd]
    field_simp
  refine ⟨?_, ?_⟩
  · intro k
    refine ⟨_, updateDecN_closed freq fps p hf hZ1 hdeg hadd hp0 hp1 _, ?_⟩
    show phaseAt p d (2 * hZ.toNat * k) = p
    have he : p + ((2 * hZ.toNat * k : ℕ) : ℚ) * d = p + 360 * ((k : ℤ) : ℚ) := by
      push_cast
      push_cast at hhd
      linear_combination (2 * (k : ℚ)) * hhd
    rw [phaseAt, he, decMod_add_int_mul p 360 k (by norm_num),
      decMod_eq_self p 360 hp0 hp1]
  · intro m
    have gmono : ∀ a b : ℕ, a ≤ b → gIdx p d a ≤ gIdx p d b := fun a b hab =>
      monotone_nat_of_le_succ (gIdx_le_succ p d hd0.le) hab
    have gstep : ∀ n, gIdx p d (n + 1) ≤ gIdx p d n + 1 := gIdx_succ_le p d hd180
    have ginc : gIdx p d (m + hZ.toNat) = gIdx p d m + 1 :=
      gIdx_add_of_mul_eq p d hZ.toNat hhd m
    have hH : 1 ≤ hZ.toNat := by omega
    have hequiv : ∀ n : ℕ, 1 ≤ n →
        ((∃ st, CheckerBoard.updateDecN freq fps n (CheckerBoard.reset p) = some st ∧
          st.flipped = true) ↔ gIdx p d n ≠ gIdx p d (n - 1)) := by
      intro n hn
      rw [updateDecN_closed freq fps p hf hZ1 hdeg hadd hp0 hp1 n]
      have hsome : (∃ st, some
          ({ cur_phase := phaseAt p d n, prev_phase := phaseAt p d (n - 1),
             flipped := decide (⌊phaseAt p d n / 180⌋ ≠ ⌊phaseAt p d (n - 1) / 180⌋) } :
             CBState) =
            some st ∧ st.flipped = true) ↔
          (decide (⌊phaseAt p d n / 180⌋ ≠ ⌊phaseAt p d (n - 1) / 180⌋) = true) := by
        constructor
        · rintro ⟨st, hst, hfl⟩
          rw [← Option.some_inj.mp hst] at hfl
          exact hfl
        · intro hfl
          exact ⟨_, rfl, hfl⟩
      rw [hsome, decide_eq_true_iff]
      have h := flip_iff p d hd0 hd180 (n - 1)
      rwa [show n - 1 + 1 = n by omega] at h
    obtain ⟨n0, hA, huniq⟩ :=
      exists_unique_increase (gIdx p d) gmono gstep m hZ.toNat hH ginc
    refine ⟨n0, ⟨hA.1, (hequiv n0 (by omega)).mpr hA.2⟩, ?_⟩
    intro y hy
    exact huniq y ⟨hy.1, (hequiv y (by omega)).mp hy.2⟩

set_option maxHeartbeats 1000000 in
/-- C3, witness for the amended theorem at `freq = 1`, `fps = 10`,
starting phase 0: there `h = 5`, the degrees-per-frame value 36 and all
wrapped phases are integers, so the context rounding is exact. -/
theorem flip_half_period_amended_witness :
    (0 : ℚ) < 1 ∧
    1 ≤ pyRound (decRound28 ((10 : ℚ) / decRound28 (1 * 2))) ∧
    decRound28 (180 / ((pyRound (decRound28 ((10 : ℚ) / decRound28 (1 * 2))) : ℤ) : ℚ)) =
      180 / ((pyRound (decRound28 ((10 : ℚ) / decRound28 (1 * 2))) : ℤ) : ℚ) ∧
    (∀ n : ℕ,
      decRound28
          (phaseAt 0 (180 / ((pyRound (decRound28 ((10 : ℚ) / decRound28 (1 * 2))) : ℤ) : ℚ)) n +
            180 / ((pyRound (decRound28 ((10 : ℚ) / decRound28 (1 * 2))) : ℤ) : ℚ)) =
        phaseAt 0 (180 / ((pyRound (decRound28 ((10 : ℚ) / decRound28 (1 * 2))) : ℤ) : ℚ)) n +
          180 / ((pyRound (decRound28 ((10 : ℚ) / decRound28 (1 * 2))) : ℤ) : ℚ)) ∧
    (0 : ℚ) ≤ 0 ∧ (0 : ℚ) < 360 ∧
    ((∀ k : ℕ,
      ∃ st, CheckerBoard.updateDecN 1 10
          (2 * (pyRound (decRound28 ((10 : ℚ) / decRound28 (1 * 2)))).toNat * k)
          (CheckerBoard.reset 0) = some st ∧ st.cur_phase = 0) ∧
    (∀ m : ℕ, ∃! n : ℕ,
      (m < n ∧ n ≤ m + (pyRound (decRound28 ((10 : ℚ) / decRound28 (1 * 2)))).toNat) ∧
      ∃ st, CheckerBoard.updateDecN 1 10 n (CheckerBoard.reset 0) = some st ∧
        st.flipped = true)) := by
  have hZ1 : 1 ≤ pyRound (decRound28 ((10 : ℚ) / decRound28 (1 * 2))) := by decide
  have hdeg : decRound28 (180 / ((pyRound (decRound28 ((10 : ℚ) / decRound28 (1 * 2))) : ℤ) : ℚ)) =
      180 / ((pyRound (decRound28 ((10 : ℚ) / decRound28 (1 * 2))) : ℤ) : ℚ) := by decide
  have h36 : (180 : ℚ) / ((pyRound (decRound28 ((10 : ℚ) / decRound28 (1 * 2))) : ℤ) : ℚ) =
      ((36 : ℤ) : ℚ) := by decide
  have hadd : ∀ n : ℕ,
      decRound28
          (phaseAt 0 (180 / ((pyRound (decRound28 ((10 : ℚ) / decRound28 (1 * 2))) : ℤ) : ℚ)) n +
            180 / ((pyRound (decRound28 ((10 : ℚ) / decRound28 (1 * 2))) : ℤ) : ℚ)) =
        phaseAt 0 (180 / ((pyRound (decRound28 ((10 : ℚ) / decRound28 (1 * 2))) : ℤ) : ℚ)) n +
          180 / ((pyRound (decRound28 ((10 : ℚ) / decRound28 (1 * 2))) : ℤ) : ℚ) := by
    intro n
    rw [h36]
    obtain ⟨m, hm, h0m, h1m⟩ := phaseAt_zero_int 36 n
    rw [hm, show ((m : ℚ) + ((36 : ℤ) : ℚ)) = (((m + 36 : ℤ)) : ℚ) by push_cast; ring]
    have hlt : (m + 36).natAbs < 10 ^ 28 := by
      have h2 : (m + 36).natAbs < 396 := by omega
      exact h2.trans_le (by norm_num)
    rw [decRound28_intCast (m + 36) hlt]
  exact ⟨by norm_num, hZ1, hdeg, hadd, le_refl 0, by norm_num,
    flip_half_period_amended 1 10 0 (by norm_num) hZ1 hdeg hadd (le_refl 0) (by norm_num)⟩


end Checkergen
